import Mathlib

/-!
# Verification of `get_subtitles.py`

A shallow embedding of the core logic of the YouTube transcript downloader
(`src/get_subtitles.py`) together with theorems settling the specification
claims about it.

Modelling conventions:
* Text is modelled over ASCII: Python's whitespace class covers the six
  classic ASCII whitespace characters, `\w` covers ASCII alphanumerics and
  the underscore.  All concrete inputs appearing in the claims are ASCII.
* Numbers of seconds are modelled as naturals: the Python code truncates
  floats with integer division, which on whole-second inputs coincides with
  natural-number division.
* Network effects are modelled by passing the outcome of the remote call as
  an explicit argument (an oracle function, or an outcome datatype), so the
  orchestration logic itself is a pure function of that outcome.
-/

namespace GetSubtitles

/-- ASCII whitespace, modelling Python's regex class `\s` and `str.strip()`
on ASCII input. -/
def isSpace (c : Char) : Bool :=
  c == ' ' || c == '\t' || c == '\n' || c == '\r' || c == '\x0b' || c == '\x0c'

/-- Sentence-terminal punctuation `[.!?]` used by the prose pipeline. -/
def isPunctTerm (c : Char) : Bool :=
  c == '.' || c == '!' || c == '?'

/-- Python `str.strip()` on ASCII: drop leading and trailing whitespace. -/
def pyStrip (l : List Char) : List Char :=
  ((l.dropWhile isSpace).reverse.dropWhile isSpace).reverse

/-- One caption segment, as built in `fetch_transcripts`:
`{'text': ..., 'start': ..., 'duration': ...}`.  Times in whole seconds. -/
structure Segment where
  text : String
  start : Nat
  duration : Nat
deriving Repr, DecidableEq

/-! ## `format_timestamp` (lines 161-174) -/

/-- Python's `f"{n:02d}"`: decimal rendering left-padded with `0` to width 2. -/
def pad2 (n : Nat) : String :=
  if n < 10 then "0" ++ toString n else toString n

/-- `format_timestamp`: seconds into `HH:MM:SS`, truncating integer division,
hours unbounded. -/
def format_timestamp (seconds : Nat) : String :=
  pad2 (seconds / 3600) ++ ":" ++ pad2 (seconds % 3600 / 60) ++ ":" ++ pad2 (seconds % 60)

/-! ## `create_timestamped_transcript` (lines 177-193) -/

/-- The line emitted for one segment: `[HH:MM:SS] ` then the stripped text. -/
def timestampedLine (seg : Segment) : String :=
  "[" ++ format_timestamp seg.start ++ "] " ++ String.mk (pyStrip seg.text.data)

/-- The loop of `create_timestamped_transcript`: one line per segment,
in order. -/
def timestampedLines : List Segment → List String
  | [] => []
  | seg :: rest => timestampedLine seg :: timestampedLines rest

/-- `create_timestamped_transcript`: newline-join the per-segment lines. -/
def create_timestamped_transcript (transcript : List Segment) : String :=
  String.intercalate "\n" (timestampedLines transcript)

theorem timestampedLines_eq_map (t : List Segment) :
    timestampedLines t = t.map timestampedLine := by
  induction t with
  | nil => rfl
  | cons seg rest ih => simp [timestampedLines, ih]

/-- **C3.** Timestamped rendering is a 1:1 line-per-segment mapping in the
original order: the output newline-joins exactly `N` lines for `N` segments,
and the `i`-th line is `[HH:MM:SS] ` (the formatted start of segment `i`)
followed by that segment's stripped text. -/
theorem claim3_timestamped_line_per_segment (t : List Segment) :
    create_timestamped_transcript t = String.intercalate "\n" (timestampedLines t)
    ∧ (timestampedLines t).length = t.length
    ∧ ∀ i : Nat, (timestampedLines t)[i]? =
        t[i]?.map (fun seg =>
          "[" ++ format_timestamp seg.start ++ "] " ++ String.mk (pyStrip seg.text.data)) := by
  refine ⟨rfl, ?_, ?_⟩
  · rw [timestampedLines_eq_map]; exact List.length_map _ _
  · intro i
    rw [timestampedLines_eq_map, List.getElem?_map]
    rfl

/-- **C4.** `format_timestamp` zero-pads each field and performs truncating
division with an unbounded hour field: the three reference values hold, and
for every `n` the rendered fields `h:m:s` satisfy `h = n / 3600` (no
modulo-24 wrap), `m, s < 60` and `n = 3600*h + 60*m + s`. -/
theorem claim4_format_timestamp_fields :
    format_timestamp 0 = "00:00:00"
    ∧ format_timestamp 3661 = "01:01:01"
    ∧ format_timestamp 90000 = "25:00:00"
    ∧ ∀ n : Nat, ∃ h m s : Nat,
        h = n / 3600 ∧ m < 60 ∧ s < 60 ∧ n = 3600 * h + 60 * m + s
        ∧ format_timestamp n = pad2 h ++ ":" ++ pad2 m ++ ":" ++ pad2 s := by
  refine ⟨by decide, by decide, by decide, ?_⟩
  intro n
  exact ⟨n / 3600, n % 3600 / 60, n % 60, rfl, by omega, by omega, by omega, rfl⟩

/-! ## `extract_video_id` (lines 23-43)

The two patterns are
`(?:youtube\.com\/watch\?v=|youtu\.be\/|youtube\.com\/embed\/)([^&\n?#]+)` and
`youtube\.com\/v\/([^&\n?#]+)`: an alternation of literal markers followed by
a greedy non-empty capture of characters outside `&`, newline, `?`, `#`.
`re.search` scans positions left to right and tries the alternatives in
order at each position. -/

/-- The regex class `[^&\n?#]` of characters allowed in a captured id. -/
def idChar (c : Char) : Bool :=
  !(c == '&' || c == '\n' || c == '?' || c == '#')

/-- `litMatch m l`: the literal `m` occurs at the start of `l`. -/
def litMatch : List Char → List Char → Bool
  | [], _ => true
  | _ :: _, [] => false
  | a :: as, b :: bs => a == b && litMatch as bs

/-- Try one alternative `m` anchored at the current position: the pattern
`m([^&\n?#]+)` with its greedy, non-empty capture. -/
def tryMarker (m : List Char) (l : List Char) : Option (List Char) :=
  if litMatch m l then
    match (l.drop m.length).takeWhile idChar with
    | [] => none
    | c :: cs => some (c :: cs)
  else none

/-- `re.search` for an alternation of literal-marker alternatives: scan
positions left to right, trying the alternatives in order at each one. -/
def searchMarkers (ms : List (List Char)) : List Char → Option (List Char)
  | [] => none
  | c :: rest =>
    match ms.findSome? (fun m => tryMarker m (c :: rest)) with
    | some cap => some cap
    | none => searchMarkers ms rest

def watchMarker : List Char := "youtube.com/watch?v=".data

def shortMarker : List Char := "youtu.be/".data

def embedMarker : List Char := "youtube.com/embed/".data

def legacyMarker : List Char := "youtube.com/v/".data

/-- The alternatives of the first pattern, in their source order. -/
def pattern1Markers : List (List Char) := [watchMarker, shortMarker, embedMarker]

/-- The single alternative of the second pattern. -/
def pattern2Markers : List (List Char) := [legacyMarker]

/-- `extract_video_id`: try the patterns in order, returning the first
capturing match, or `none` when neither pattern matches. -/
def extract_video_id (url : String) : Option String :=
  match searchMarkers pattern1Markers url.data with
  | some cap => some (String.mk cap)
  | none =>
    match searchMarkers pattern2Markers url.data with
    | some cap => some (String.mk cap)
    | none => none

/-- Declaratively: some marker of `ms` occurs in `l` followed by at least one
id character (exactly when one of the embedded patterns has a match). -/
def MarkerHit (ms : List (List Char)) (l : List Char) : Prop :=
  ∃ pre m c post, m ∈ ms ∧ l = pre ++ m ++ c :: post ∧ idChar c = true

theorem litMatch_iff (m l : List Char) :
    litMatch m l = true ↔ ∃ t, l = m ++ t := by
  induction m generalizing l with
  | nil => simp [litMatch]
  | cons a as ih =>
    cases l with
    | nil =>
      simp only [litMatch, List.cons_append]
      constructor
      · intro h; cases h
      · rintro ⟨t, h⟩; cases h
    | cons b bs =>
      simp only [litMatch, Bool.and_eq_true, beq_iff_eq, ih, List.cons_append]
      constructor
      · rintro ⟨rfl, t, rfl⟩; exact ⟨t, rfl⟩
      · rintro ⟨t, h⟩
        injection h with h1 h2
        exact ⟨h1.symm, t, h2⟩

theorem tryMarker_eq_none_iff (m l : List Char) :
    tryMarker m l = none ↔ ¬ ∃ c post, l = m ++ c :: post ∧ idChar c = true := by
  unfold tryMarker
  by_cases hm : litMatch m l = true
  · rw [if_pos hm]
    obtain ⟨t, rfl⟩ := (litMatch_iff m l).mp hm
    rw [List.drop_left' rfl]
    cases ht : t.takeWhile idChar with
    | nil =>
      simp only [true_iff]
      rintro ⟨c, post, happ, hc⟩
      have : t = c :: post := by
        have := List.append_cancel_left happ
        exact this
      subst this
      rw [List.takeWhile_cons, if_pos hc] at ht
      cases ht
    | cons c cs =>
      simp only [reduceCtorEq, false_iff, not_not]
      have hhead : ∃ rest, t = c :: rest := by
        cases t with
        | nil => simp [List.takeWhile] at ht
        | cons x xs =>
          rw [List.takeWhile_cons] at ht
          by_cases hx : idChar x = true
          · rw [if_pos hx] at ht
            injection ht with h1 _
            exact ⟨xs, by rw [h1]⟩
          · rw [if_neg hx] at ht; cases ht
      obtain ⟨rest, rfl⟩ := hhead
      have hc : idChar c = true := by
        rw [List.takeWhile_cons] at ht
        by_cases hx : idChar c = true
        · exact hx
        · rw [if_neg hx] at ht; cases ht
      exact ⟨c, rest, rfl, hc⟩
  · rw [if_neg hm]
    simp only [true_iff]
    rintro ⟨c, post, rfl, _⟩
    exact hm ((litMatch_iff m _).mpr ⟨c :: post, rfl⟩)

theorem findSome?_none_all {α β : Type} (f : α → Option β) (l : List α)
    (h : l.findSome? f = none) : ∀ a ∈ l, f a = none := by
  induction l with
  | nil => intro a ha; cases ha
  | cons x xs ih =>
    rw [List.findSome?_cons] at h
    intro a ha
    cases hx : f x with
    | some b => rw [hx] at h; cases h
    | none =>
      rw [hx] at h
      rcases List.mem_cons.mp ha with rfl | ha
      · exact hx
      · exact ih h a ha

theorem searchMarkers_eq_none_iff (ms : List (List Char)) (l : List Char) :
    searchMarkers ms l = none ↔ ¬ MarkerHit ms l := by
  induction l with
  | nil =>
    simp only [searchMarkers, true_iff]
    rintro ⟨pre, m, c, post, _, h, _⟩
    have := congrArg List.length h
    simp at this
    omega
  | cons x rest ih =>
    unfold searchMarkers
    cases hf : ms.findSome? (fun m => tryMarker m (x :: rest)) with
    | some cap =>
      simp only [reduceCtorEq, false_iff, not_not]
      obtain ⟨m, hmem, hm⟩ := List.exists_of_findSome?_eq_some hf
      rcases hsome : tryMarker m (x :: rest) with _ | cap'
      · rw [hsome] at hm; cases hm
      · have : ¬ tryMarker m (x :: rest) = none := by rw [hsome]; simp
        have hex := not_not.mp (fun hno => this ((tryMarker_eq_none_iff m (x :: rest)).mpr hno))
        obtain ⟨c, post, happ, hc⟩ := hex
        exact ⟨[], m, c, post, hmem, by simpa using happ, hc⟩
    | none =>
      rw [ih]
      have hall : ∀ m ∈ ms, tryMarker m (x :: rest) = none :=
        findSome?_none_all _ _ hf
      constructor
      · intro hno hhit
        obtain ⟨pre, m, c, post, hmem, happ, hc⟩ := hhit
        cases pre with
        | nil =>
          have := (tryMarker_eq_none_iff m (x :: rest)).mp (hall m hmem)
          exact this ⟨c, post, by simpa using happ, hc⟩
        | cons p ps =>
          apply hno
          refine ⟨ps, m, c, post, hmem, ?_, hc⟩
          have : p :: (ps ++ m ++ c :: post) = x :: rest := by simpa using happ.symm
          injection this with _ h2
          exact h2.symm
      · intro hno hhit
        obtain ⟨pre, m, c, post, hmem, happ, hc⟩ := hhit
        exact hno ⟨x :: pre, m, c, post, hmem, by simp [happ], hc⟩

/-- **C7.** Identifier extraction applies the ordered pattern list covering
the standard watch URL, the short link, the embed URL and the legacy `/v/`
form and returns the first capturing match; a URL containing no
marker-plus-id-character match for any pattern yields `none`. -/
theorem claim7_extract_video_id :
    extract_video_id "https://www.youtube.com/watch?v=dQw4w9WgXcQ" = some "dQw4w9WgXcQ"
    ∧ extract_video_id "https://youtu.be/dQw4w9WgXcQ" = some "dQw4w9WgXcQ"
    ∧ extract_video_id "https://www.youtube.com/embed/dQw4w9WgXcQ" = some "dQw4w9WgXcQ"
    ∧ extract_video_id "https://www.youtube.com/v/dQw4w9WgXcQ" = some "dQw4w9WgXcQ"
    ∧ extract_video_id "https://vimeo.com/12345678" = none
    ∧ ∀ url : String, extract_video_id url = none ↔
        ¬ MarkerHit (pattern1Markers ++ pattern2Markers) url.data := by
  refine ⟨by decide, by decide, by decide, by decide, by decide, ?_⟩
  intro url
  unfold extract_video_id
  cases h1 : searchMarkers pattern1Markers url.data with
  | some cap =>
    simp only [reduceCtorEq, false_iff, not_not]
    have hne : ¬ searchMarkers pattern1Markers url.data = none := by rw [h1]; simp
    have hhit := not_not.mp
      (fun hno => hne ((searchMarkers_eq_none_iff _ _).mpr hno))
    obtain ⟨pre, m, c, post, hmem, happ, hc⟩ := hhit
    exact ⟨pre, m, c, post, List.mem_append_left _ hmem, happ, hc⟩
  | none =>
    have hno1 := (searchMarkers_eq_none_iff pattern1Markers url.data).mp h1
    cases h2 : searchMarkers pattern2Markers url.data with
    | some cap =>
      simp only [reduceCtorEq, false_iff, not_not]
      have hne : ¬ searchMarkers pattern2Markers url.data = none := by rw [h2]; simp
      have hhit := not_not.mp
        (fun hno => hne ((searchMarkers_eq_none_iff _ _).mpr hno))
      obtain ⟨pre, m, c, post, hmem, happ, hc⟩ := hhit
      exact ⟨pre, m, c, post, List.mem_append_right _ hmem, happ, hc⟩
    | none =>
      have hno2 := (searchMarkers_eq_none_iff pattern2Markers url.data).mp h2
      simp only [true_iff]
      rintro ⟨pre, m, c, post, hmem, happ, hc⟩
      rcases List.mem_append.mp hmem with hm | hm
      · exact hno1 ⟨pre, m, c, post, hm, happ, hc⟩
      · exact hno2 ⟨pre, m, c, post, hm, happ, hc⟩

/-! ## `get_video_title` (lines 46-70) -/

/-- Outcome of the oembed HTTP call as observed by `get_video_title`: either
some exception was raised (during the request or while parsing the JSON
payload), or a response arrived with a status code and an optional `title`
field. -/
inductive OembedOutcome where
  | raised (msg : String)
  | response (status : Nat) (jsonTitle : Option String)
deriving Repr, DecidableEq

/-- `get_video_title`: on a 200 response whose `title` field is present and
non-empty, return that title; in every other situation fall back to the
video id.  `data.get('title', '')` is `jsonTitle.getD ""`, and `if title:`
is the non-emptiness test. -/
def get_video_title (video_id : String) (o : OembedOutcome) : String :=
  match o with
  | .raised _ => video_id
  | .response status jsonTitle =>
    if status == 200 then
      let title := jsonTitle.getD ""
      if title ≠ "" then title else video_id
    else video_id

/-- **C8.** Metadata lookup is total over every endpoint behaviour and never
raises: with a 200 response carrying a non-empty title it returns that
title, and under every other outcome (raised exception, non-200 status,
missing or empty title field) it returns the identifier itself. -/
theorem claim8_get_video_title_total :
    (∀ v t : String, t ≠ "" →
        get_video_title v (OembedOutcome.response 200 (some t)) = t)
    ∧ ∀ (v : String) (o : OembedOutcome),
        (∀ t : String, t ≠ "" → o ≠ OembedOutcome.response 200 (some t)) →
        get_video_title v o = v := by
  constructor
  · intro v t ht
    simp [get_video_title, ht]
  · intro v o h
    match o with
    | .raised m => rfl
    | .response status jsonTitle =>
      by_cases hs : status = 200
      · subst hs
        cases jsonTitle with
        | none => simp [get_video_title]
        | some t =>
          by_cases ht : t = ""
          · subst ht; simp [get_video_title]
          · exact absurd rfl (h t ht)
      · simp [get_video_title, hs]

/-- Witness for C8 at concrete endpoint outcomes. -/
theorem claim8_get_video_title_total_witness :
    get_video_title "abc123" (OembedOutcome.response 200 (some "A Title")) = "A Title"
    ∧ get_video_title "abc123" (OembedOutcome.raised "timed out") = "abc123"
    ∧ get_video_title "abc123" (OembedOutcome.response 404 (some "A Title")) = "abc123"
    ∧ get_video_title "abc123" (OembedOutcome.response 200 (some "")) = "abc123"
    ∧ get_video_title "abc123" (OembedOutcome.response 200 none) = "abc123" := by
  refine ⟨claim8_get_video_title_total.1 "abc123" "A Title" (by decide),
    claim8_get_video_title_total.2 "abc123" _ (fun t ht h => by simp at h),
    claim8_get_video_title_total.2 "abc123" _ (fun t ht h => by simp at h),
    claim8_get_video_title_total.2 "abc123" _ (fun t ht h => ?_),
    claim8_get_video_title_total.2 "abc123" _ (fun t ht h => by simp at h)⟩
  simp only [OembedOutcome.response.injEq, Option.some.injEq, true_and] at h
  exact ht h.symm

/-! ## `create_filename_from_title` (lines 73-98) -/

/-- Python's `\w` on ASCII: letters, digits and the underscore. -/
def isWordChar (c : Char) : Bool :=
  c.isAlphanum || c == '_'

/-- `re.sub(r'[^\w\s]', '', title)` on ASCII input: keep exactly the word
characters and the whitespace. -/
def cleanTitle (l : List Char) : List Char :=
  l.filter (fun c => isWordChar c || isSpace c)

/-- The loop behind Python's `str.split()` (no separator): accumulate the
current non-whitespace run, flushing it at whitespace; no empty tokens. -/
def pySplitWsAux : List Char → List Char → List (List Char)
  | cur, [] => if cur.isEmpty then [] else [cur.reverse]
  | cur, c :: cs =>
    if isSpace c then
      if cur.isEmpty then pySplitWsAux [] cs
      else cur.reverse :: pySplitWsAux [] cs
    else pySplitWsAux (c :: cur) cs

/-- Python `str.split()` with no separator: the maximal non-whitespace runs,
in order. -/
def pySplitWs (l : List Char) : List (List Char) :=
  pySplitWsAux [] l

/-- Python `str.lower()` on ASCII. -/
def pyLower (l : List Char) : List Char :=
  l.map Char.toLower

/-- `'_'.join(words)`. -/
def joinUnderscore : List (List Char) → List Char
  | [] => []
  | [w] => w
  | w :: ws => w ++ '_' :: joinUnderscore ws

/-- `create_filename_from_title`: first three words of the cleaned title,
joined with underscores and lowercased, falling back to the video id when
the title is empty, equals the id, or cleans to no words. -/
def create_filename_from_title (title video_id language_code file_type : String) : String :=
  let title_part :=
    if title ≠ "" ∧ title ≠ video_id then
      let words := (pySplitWs (cleanTitle title.data)).take 3
      if words ≠ [] then String.mk (pyLower (joinUnderscore words))
      else video_id
    else video_id
  title_part ++ "_transcript_" ++ file_type ++ "_" ++ language_code ++ ".txt"

/-- Modelled from the words of claim C2 (spec §4.8): the stem strips all
characters that are **not alphanumeric or whitespace** — unlike the code's
`\w`, this drops the underscore. -/
def claimStem (title video_id : String) : String :=
  if title = video_id then video_id
  else
    let words := (pySplitWs (title.data.filter (fun c => c.isAlphanum || isSpace c))).take 3
    if words ≠ [] then String.mk (pyLower (joinUnderscore words))
    else video_id

/-- The filename mandated by claim C2 as stated. -/
def claimFilename (title video_id language_code file_type : String) : String :=
  claimStem title video_id ++ "_transcript_" ++ file_type ++ "_" ++ language_code ++ ".txt"

/-- **C2 counterexample.** For the underscore-only title `"_"` the claim's
rule (strip non-alphanumeric, non-whitespace characters) yields no tokens
and mandates the id stem `abc123`, but the code's `\w` class keeps the
underscore, so the code produces the stem `_` instead. -/
theorem claim2_counterexample :
    create_filename_from_title "_" "abc123" "en" "prose" = "__transcript_prose_en.txt"
    ∧ claimFilename "_" "abc123" "en" "prose" = "abc123_transcript_prose_en.txt"
    ∧ create_filename_from_title "_" "abc123" "en" "prose"
        ≠ claimFilename "_" "abc123" "en" "prose" :=
  ⟨by decide, by decide, by decide⟩

/-- Modelled from the amended claim: as claim C2, but the kept characters
are the word characters (alphanumeric or underscore) and whitespace, i.e.
Python's `[^\w\s]` complement; tokens are lowercased individually. -/
def amendedStem (title video_id : String) : String :=
  if title = video_id then video_id
  else
    let toks :=
      (pySplitWs (title.data.filter (fun c => c.isAlphanum || c == '_' || isSpace c))).map pyLower
    match toks.take 3 with
    | [] => video_id
    | w :: ws => String.mk (joinUnderscore (w :: ws))

/-- The filename mandated by the amended claim C2. -/
def amendedFilename (title video_id language_code file_type : String) : String :=
  amendedStem title video_id ++ "_transcript_" ++ file_type ++ "_" ++ language_code ++ ".txt"

theorem pyLower_joinUnderscore (ws : List (List Char)) :
    pyLower (joinUnderscore ws) = joinUnderscore (ws.map pyLower) := by
  induction ws with
  | nil => rfl
  | cons w ws ih =>
    cases ws with
    | nil => rfl
    | cons w' ws' =>
      show pyLower (w ++ '_' :: joinUnderscore (w' :: ws')) =
        pyLower w ++ '_' :: joinUnderscore ((w' :: ws').map pyLower)
      rw [← ih]
      simp only [pyLower, List.map_append, List.map_cons]
      rw [show Char.toLower '_' = '_' from by decide]

/-- **C2 (amended).** The filename is `{stem}_transcript_{kind}_{lang}.txt`
where the stem keeps word characters (alphanumerics *and underscore*) and
whitespace, splits on whitespace, takes the first three tokens, joins with
underscore and lowercases, falling back to the raw id when no tokens remain
or the title equals the id; the claim's concrete examples hold. -/
theorem claim2_amended_filename :
    (∀ title v lang kind : String,
      create_filename_from_title title v lang kind = amendedFilename title v lang kind)
    ∧ create_filename_from_title "A Great Video!!" "abc123" "en" "prose"
        = "a_great_video_transcript_prose_en.txt"
    ∧ create_filename_from_title "abc123" "abc123" "en" "timestamped"
        = "abc123_transcript_timestamped_en.txt"
    ∧ create_filename_from_title "!!!" "abc123" "en" "prose"
        = "abc123_transcript_prose_en.txt" := by
  refine ⟨?_, by decide, by decide, by decide⟩
  intro title v lang kind
  unfold create_filename_from_title amendedFilename amendedStem
  by_cases hv : title = v
  · simp [hv]
  · by_cases ht : title = ""
    · subst ht
      simp [hv, pySplitWs, pySplitWsAux, show ("" : String).data = [] from rfl]
    · have hfilter : cleanTitle title.data =
          title.data.filter (fun c => c.isAlphanum || c == '_' || isSpace c) := by
        unfold cleanTitle
        apply List.filter_congr
        intro c _
        simp [isWordChar, Bool.or_assoc]
      simp only [ht, hv, ne_eq, not_false_iff, true_and, if_true, if_neg hv]
      rw [hfilter.symm]
      rw [← List.map_take]
      cases hw : (pySplitWs (cleanTitle title.data)).take 3 with
      | nil => simp
      | cons w ws =>
        simp only [List.map_cons, ne_eq, reduceCtorEq, not_false_iff, if_true]
        rw [show (pyLower w :: ws.map pyLower) = (w :: ws).map pyLower from rfl]
        rw [← pyLower_joinUnderscore]
        simp

/-! ## `fetch_transcripts` (lines 125-158) -/

/-- Python dict assignment `d[k] = v` on an insertion-ordered association
list: overwrite an existing key in place, otherwise append at the end. -/
def dictInsert {α : Type} : List (String × α) → String → α → List (String × α)
  | [], k, v => [(k, v)]
  | (k', v') :: rest, k, v =>
    if k' = k then (k, v) :: rest else (k', v') :: dictInsert rest k v

/-- Python dict lookup `d[k]` (as an option). -/
def dictFind {α : Type} : List (String × α) → String → Option α
  | [], _ => none
  | (k', v') :: rest, k => if k' = k then some v' else dictFind rest k

/-- The loop of `fetch_transcripts` over the requested language codes.  The
outcome of `api.fetch` for each language is supplied by the oracle `f`;
`none` models a raised exception, which the code catches, logs and skips. -/
def fetchLoop (f : String → Option (List Segment)) :
    List (String × List Segment) → List String → List (String × List Segment)
  | acc, [] => acc
  | acc, code :: rest =>
    match f code with
    | some segs => fetchLoop f (dictInsert acc code segs) rest
    | none => fetchLoop f acc rest

/-- `fetch_transcripts`: try every requested language independently and
return the mapping of the successful ones. -/
def fetch_transcripts (f : String → Option (List Segment))
    (codes : List String) : List (String × List Segment) :=
  fetchLoop f [] codes

theorem dictFind_dictInsert {α : Type} (d : List (String × α)) (k c : String) (v : α) :
    dictFind (dictInsert d k v) c = if k = c then some v else dictFind d c := by
  induction d with
  | nil => simp [dictInsert, dictFind]
  | cons p rest ih =>
    obtain ⟨k', v'⟩ := p
    by_cases hk : k' = k
    · subst hk
      by_cases hkc : k' = c <;> simp [dictInsert, dictFind, hkc]
    · by_cases hkc : k' = c
      · subst hkc
        have hck : ¬ k = k' := fun h => hk h.symm
        simp [dictInsert, dictFind, hk, hck]
      · simp [dictInsert, dictFind, hk, hkc, ih]

theorem fetchLoop_find (f : String → Option (List Segment)) (codes : List String)
    (acc : List (String × List Segment)) (c : String) :
    dictFind (fetchLoop f acc codes) c =
      if c ∈ codes ∧ (f c).isSome then f c else dictFind acc c := by
  induction codes generalizing acc with
  | nil => simp [fetchLoop]
  | cons code rest ih =>
    cases hf : f code with
    | some segs =>
      simp only [fetchLoop, hf]
      rw [ih, dictFind_dictInsert]
      by_cases hc : c = code
      · subst hc
        by_cases hrest : c ∈ rest
        · simp [hrest, hf]
        · simp [hrest, hf, List.mem_cons]
      · have hcc : ¬ code = c := fun h => hc h.symm
        by_cases hrest : c ∈ rest
        · simp [hrest, hcc, List.mem_cons, hc]
        · simp [hrest, hcc, List.mem_cons, hc]
    | none =>
      simp only [fetchLoop, hf]
      rw [ih]
      by_cases hc : c = code
      · subst hc
        by_cases hrest : c ∈ rest
        · simp [hrest, hf]
        · simp [hrest, hf, List.mem_cons]
      · by_cases hrest : c ∈ rest
        · simp [hrest, List.mem_cons, hc]
        · simp [hrest, List.mem_cons, hc]

/-- A concrete segment for the worked examples. -/
def exampleSegment : Segment :=
  { text := "hello world.", start := 0, duration := 2 }

/-- A concrete fetch oracle: English succeeds, everything else raises. -/
def exampleFetch : String → Option (List Segment) :=
  fun c => if c = "en" then some [exampleSegment] else none

/-- **C6.** Each requested language is attempted independently; a failing
language is skipped rather than aborting the loop, and the resulting
mapping sends exactly the successfully fetched requested codes to their
segment sequences (failed or unrequested codes are absent).  In particular
requesting `["en", "xx"]`, where `xx` fails, yields only the `en` entry —
also when the failing language comes first. -/
theorem claim6_fetch_transcripts_per_language :
    (∀ (f : String → Option (List Segment)) (codes : List String) (c : String),
      dictFind (fetch_transcripts f codes) c = if c ∈ codes then f c else none)
    ∧ fetch_transcripts exampleFetch ["en", "xx"] = [("en", [exampleSegment])]
    ∧ fetch_transcripts exampleFetch ["xx", "en"] = [("en", [exampleSegment])] := by
  refine ⟨?_, by decide, by decide⟩
  intro f codes c
  rw [fetch_transcripts, fetchLoop_find]
  by_cases hmem : c ∈ codes
  · cases hf : f c with
    | some segs => simp [hmem, hf, dictFind]
    | none => simp [hmem, hf, dictFind]
  · simp [hmem, dictFind]

theorem keys_dictInsert {α : Type} (d : List (String × α)) (k : String) (v : α)
    (c : String) :
    c ∈ (dictInsert d k v).map Prod.fst ↔ c = k ∨ c ∈ d.map Prod.fst := by
  induction d with
  | nil => simp [dictInsert]
  | cons p rest ih =>
    obtain ⟨k', v'⟩ := p
    by_cases hk : k' = k
    · subst hk
      simp [dictInsert]
    · simp only [dictInsert, if_neg hk, List.map_cons, List.mem_cons, ih]
      tauto

theorem nodup_keys_dictInsert {α : Type} (d : List (String × α)) (k : String) (v : α)
    (h : (d.map Prod.fst).Nodup) : ((dictInsert d k v).map Prod.fst).Nodup := by
  induction d with
  | nil => simp [dictInsert]
  | cons p rest ih =>
    obtain ⟨k', v'⟩ := p
    simp only [List.map_cons, List.nodup_cons] at h
    by_cases hk : k' = k
    · subst hk
      simpa [dictInsert] using h
    · simp only [dictInsert, if_neg hk, List.map_cons, List.nodup_cons]
      constructor
      · intro hmem
        rcases (keys_dictInsert rest k v k').mp hmem with h1 | h1
        · exact hk h1
        · exact h.1 h1
      · exact ih h.2

theorem fetchLoop_keys (f : String → Option (List Segment)) (codes : List String)
    (acc : List (String × List Segment)) (h : (acc.map Prod.fst).Nodup) :
    ((fetchLoop f acc codes).map Prod.fst).Nodup
    ∧ ∀ c : String, c ∈ (fetchLoop f acc codes).map Prod.fst →
        c ∈ acc.map Prod.fst ∨ c ∈ codes := by
  induction codes generalizing acc with
  | nil => exact ⟨h, fun c hc => Or.inl hc⟩
  | cons code rest ih =>
    cases hf : f code with
    | some segs =>
      have hins := nodup_keys_dictInsert acc code segs h
      obtain ⟨h1, h2⟩ := ih (dictInsert acc code segs) hins
      refine ⟨by simpa [fetchLoop, hf] using h1, ?_⟩
      intro c hc
      rcases h2 c (by simpa [fetchLoop, hf] using hc) with hmem | hmem
      · rcases (keys_dictInsert acc code segs c).mp hmem with h3 | h3
        · exact Or.inr (by simp [h3])
        · exact Or.inl h3
      · exact Or.inr (List.mem_cons_of_mem _ hmem)
    | none =>
      obtain ⟨h1, h2⟩ := ih acc h
      refine ⟨by simpa [fetchLoop, hf] using h1, ?_⟩
      intro c hc
      rcases h2 c (by simpa [fetchLoop, hf] using hc) with hmem | hmem
      · exact Or.inl hmem
      · exact Or.inr (List.mem_cons_of_mem _ hmem)

/-- **C10.** The mapping returned by `fetch_transcripts` holds each language
code at most once (its key list has no duplicates), and every key was
requested; requesting the same code twice yields a single entry. -/
theorem claim10_fetch_transcripts_keys :
    (∀ (f : String → Option (List Segment)) (codes : List String),
      ((fetch_transcripts f codes).map Prod.fst).Nodup
      ∧ ∀ c : String, c ∈ (fetch_transcripts f codes).map Prod.fst → c ∈ codes)
    ∧ fetch_transcripts exampleFetch ["en", "en"] = [("en", [exampleSegment])] := by
  refine ⟨?_, by decide⟩
  intro f codes
  obtain ⟨h1, h2⟩ := fetchLoop_keys f codes [] (by simp)
  refine ⟨h1, ?_⟩
  intro c hc
  rcases h2 c hc with hmem | hmem
  · simp at hmem
  · exact hmem

/-- Witness for C10: concrete duplicated request. -/
theorem claim10_fetch_transcripts_keys_witness :
    ((fetch_transcripts exampleFetch ["en", "en"]).map Prod.fst).Nodup
    ∧ "en" ∈ ["en", "en"] :=
  ⟨(claim10_fetch_transcripts_keys.1 exampleFetch ["en", "en"]).1,
   (claim10_fetch_transcripts_keys.1 exampleFetch ["en", "en"]).2 "en" (by decide)⟩

/-! ## `create_prose_transcript` (lines 196-233) -/

/-- `sep.join(parts)` in Python: parts joined by `sep`, empties kept. -/
def joinWith (sep : List Char) : List (List Char) → List Char
  | [] => []
  | [x] => x
  | x :: xs => x ++ sep ++ joinWith sep xs

/-- `' '.join(segment['text'] for segment in transcript)`. -/
def joinTexts (transcript : List Segment) : List Char :=
  joinWith [' '] (transcript.map (fun seg => seg.text.data))

/-- `re.sub(r'\s+', ' ', ...)`: replace each maximal whitespace run with a
single space. -/
def collapseWs : List Char → List Char
  | [] => []
  | c :: cs =>
    if isSpace c then ' ' :: collapseWs (cs.dropWhile isSpace)
    else c :: collapseWs cs
termination_by l => l.length
decreasing_by
  · have := (List.dropWhile_sublist (p := isSpace) (l := cs)).length_le
    simp only [List.length_cons]
    omega
  · simp only [List.length_cons]
    omega

/-- `re.sub(r'\s+([.!?])', r'\1', ...)`: a maximal whitespace run directly
followed by sentence-terminal punctuation is replaced by the punctuation
character alone; everything else is copied. -/
def rmWsPunct : List Char → List Char
  | [] => []
  | c :: cs =>
    if isSpace c then
      match h : cs.dropWhile isSpace with
      | p :: rest => if isPunctTerm p then p :: rmWsPunct rest else c :: rmWsPunct cs
      | [] => c :: rmWsPunct cs
    else c :: rmWsPunct cs
termination_by l => l.length
decreasing_by
  · have hle := (List.dropWhile_sublist (p := isSpace) (l := cs)).length_le
    rw [h] at hle
    simp only [List.length_cons] at hle ⊢
    omega
  · simp only [List.length_cons]
    omega
  · simp only [List.length_cons]
    omega
  · simp only [List.length_cons]
    omega

/-- `re.split(r'(?<=[.!?])\s+', ...)`: fields between boundaries, where a
boundary is a maximal whitespace run whose immediately preceding character
is sentence-terminal punctuation; leftmost boundary split off first. -/
def splitSentences : List Char → List (List Char)
  | [] => [[]]
  | [c] => [[c]]
  | p :: c :: rest =>
    if isPunctTerm p && isSpace c then
      [p] :: splitSentences (rest.dropWhile isSpace)
    else
      match splitSentences (c :: rest) with
      | u :: us => (p :: u) :: us
      | [] => [[p]]
termination_by l => l.length
decreasing_by
  · have := (List.dropWhile_sublist (p := isSpace) (l := rest)).length_le
    simp only [List.length_cons]
    omega
  · simp only [List.length_cons]
    omega

/-- The paragraph-grouping loop of `create_prose_transcript`: skip blank
sentence units, append stripped ones to the current paragraph, flush it at
three sentences, and flush a non-empty remainder at the end. -/
def proseLoop : List (List Char) → List (List Char) → List (List Char)
  | cur, [] => if cur.isEmpty then [] else [joinWith [' '] cur]
  | cur, s :: rest =>
    if (pyStrip s).isEmpty then proseLoop cur rest
    else
      let cur' := cur ++ [pyStrip s]
      if 3 ≤ cur'.length then joinWith [' '] cur' :: proseLoop [] rest
      else proseLoop cur' rest

/-- The sentence units the prose rendering feeds into grouping: texts joined
with spaces, whitespace collapsed, whitespace before punctuation removed,
then the lookbehind sentence split. -/
def proseUnits (transcript : List Segment) : List (List Char) :=
  splitSentences (rmWsPunct (collapseWs (joinTexts transcript)))

/-- `create_prose_transcript`: group the sentence units into paragraphs and
join the paragraphs with a blank line. -/
def create_prose_transcript (transcript : List Segment) : String :=
  String.mk (joinWith ['\n', '\n'] (proseLoop [] (proseUnits transcript)))

/-! ## Spec-side description of the prose normalization (C5)

The following definitions are modelled from the spec's wording of §4.7
steps 1-4 and are deliberately structured differently from the regex
embeddings above (single-pass state machines instead of leftmost-match
recursions); the refinement theorem for C5 proves they agree. -/

theorem isSpace_not_punct (c : Char) (h : isSpace c = true) : isPunctTerm c = false := by
  simp only [isSpace, Bool.or_eq_true, beq_iff_eq] at h
  rcases h with ((((rfl | rfl) | rfl) | rfl) | rfl) | rfl <;> rfl

/-- Modelled from the spec: collapse runs of whitespace to one space — a
single pass remembering whether the previous character was whitespace. -/
def specCollapseAux : Bool → List Char → List Char
  | _, [] => []
  | prev, c :: cs =>
    if isSpace c then
      if prev then specCollapseAux true cs else ' ' :: specCollapseAux true cs
    else c :: specCollapseAux false cs

/-- Modelled from the spec: whitespace runs collapsed to single spaces. -/
def specCollapseWs (l : List Char) : List Char :=
  specCollapseAux false l

theorem specCollapseAux_true (l : List Char) :
    specCollapseAux true l = specCollapseAux false (l.dropWhile isSpace) := by
  induction l with
  | nil => rfl
  | cons c cs ih =>
    by_cases h : isSpace c
    · rw [List.dropWhile_cons, if_pos h]
      simpa [specCollapseAux, h] using ih
    · rw [List.dropWhile_cons, if_neg h]
      simp [specCollapseAux, h]

theorem collapseWs_eq_spec (l : List Char) : collapseWs l = specCollapseWs l := by
  unfold specCollapseWs
  induction l using collapseWs.induct with
  | case1 => rw [collapseWs]; rfl
  | case2 c cs h ih =>
    rw [collapseWs, if_pos h]
    rw [show specCollapseAux false (c :: cs) = ' ' :: specCollapseAux true cs from by
      simp [specCollapseAux, h]]
    rw [specCollapseAux_true, ih]
  | case3 c cs h ih =>
    rw [collapseWs, if_neg h]
    rw [show specCollapseAux false (c :: cs) = c :: specCollapseAux false cs from by
      simp [specCollapseAux, h]]
    rw [ih]

/-- Whether a character list starts with sentence-terminal punctuation. -/
def headPunct : List Char → Bool
  | [] => false
  | p :: _ => isPunctTerm p

/-- Modelled from the spec: remove whitespace immediately preceding
sentence-terminal punctuation — a right-to-left pass dropping every
whitespace character directly followed by punctuation. -/
def specRmWs (l : List Char) : List Char :=
  l.foldr (fun c acc => if isSpace c && headPunct acc then acc else c :: acc) []

theorem specRmWs_cons (c : Char) (cs : List Char) :
    specRmWs (c :: cs) =
      if isSpace c && headPunct (specRmWs cs) then specRmWs cs
      else c :: specRmWs cs := rfl

theorem headPunct_cons (c : Char) (l : List Char) :
    headPunct (c :: l) = isPunctTerm c := rfl

theorem headPunct_specRmWs (l : List Char) :
    headPunct (specRmWs l) = headPunct (l.dropWhile isSpace) := by
  induction l with
  | nil => rfl
  | cons c cs ih =>
    rw [List.dropWhile_cons, specRmWs_cons]
    by_cases h : isSpace c
    · rw [if_pos h]
      by_cases hp : headPunct (specRmWs cs) = true
      · rw [show (isSpace c && headPunct (specRmWs cs)) = true from by simp [h, hp]]
        rw [if_pos rfl]
        exact ih
      · have hpf : headPunct (specRmWs cs) = false := Bool.eq_false_iff.mpr hp
        rw [show (isSpace c && headPunct (specRmWs cs)) = false from by simp [hpf]]
        rw [if_neg (by simp)]
        rw [headPunct_cons, isSpace_not_punct c h, ← ih, hpf]
    · rw [if_neg h]
      rw [show (isSpace c && headPunct (specRmWs cs)) = false from by simp [h]]
      rw [if_neg (by simp)]
      rw [headPunct_cons, headPunct_cons]

theorem specRmWs_ws_run (cs : List Char) (p : Char) (rest : List Char)
    (hdrop : cs.dropWhile isSpace = p :: rest) (hp : isPunctTerm p = true) :
    specRmWs cs = p :: specRmWs rest := by
  induction cs with
  | nil => cases hdrop
  | cons c cs' ih =>
    rw [List.dropWhile_cons] at hdrop
    by_cases h : isSpace c
    · rw [if_pos h] at hdrop
      have hrec := ih hdrop
      rw [specRmWs_cons, hrec]
      rw [show (isSpace c && headPunct (p :: specRmWs rest)) = true from by
        simp [h, headPunct, hp]]
      simp
    · rw [if_neg h] at hdrop
      injection hdrop with h1 h2
      subst h1; subst h2
      rw [specRmWs_cons]
      rw [show (isSpace c && headPunct (specRmWs cs')) = false from by simp [h]]
      simp

theorem rmWsPunct_eq_spec (l : List Char) : rmWsPunct l = specRmWs l := by
  induction l using rmWsPunct.induct with
  | case1 => rw [rmWsPunct]; rfl
  | case2 c cs h p rest hdrop hp ih =>
    rw [rmWsPunct.eq_2, if_pos h]
    split
    next p' rest' heq =>
      rw [hdrop] at heq
      injection heq with h1 h2
      subst h1; subst h2
      rw [if_pos hp, ih]
      rw [specRmWs_cons, specRmWs_ws_run cs p rest hdrop hp]
      rw [show (isSpace c && headPunct (p :: specRmWs rest)) = true from by
        simp [h, headPunct_cons, hp]]
      rw [if_pos rfl]
    next heq =>
      rw [hdrop] at heq; cases heq
  | case3 c cs h p rest hdrop hp ih =>
    rw [rmWsPunct.eq_2, if_pos h]
    split
    next p' rest' heq =>
      rw [hdrop] at heq
      injection heq with h1 h2
      subst h1; subst h2
      rw [if_neg hp, ih]
      rw [specRmWs_cons]
      rw [show (isSpace c && headPunct (specRmWs cs)) = false from by
        rw [headPunct_specRmWs, hdrop, headPunct_cons]
        simp [Bool.eq_false_iff.mpr hp]]
      rw [if_neg (by simp)]
    next heq =>
      rw [hdrop] at heq; cases heq
  | case4 c cs h hdrop ih =>
    rw [rmWsPunct.eq_2, if_pos h]
    split
    next p' rest' heq =>
      rw [hdrop] at heq; cases heq
    next heq =>
      rw [ih, specRmWs_cons]
      rw [show (isSpace c && headPunct (specRmWs cs)) = false from by
        rw [headPunct_specRmWs, hdrop]
        simp [headPunct]]
      rw [if_neg (by simp)]
  | case5 c cs h ih =>
    rw [rmWsPunct.eq_2, if_neg h]
    rw [ih, specRmWs_cons]
    rw [show (isSpace c && headPunct (specRmWs cs)) = false from by simp [h]]
    rw [if_neg (by simp)]

/-- Whether the previously scanned character is sentence-terminal
punctuation. -/
def prevPunct : Option Char → Bool
  | some p => isPunctTerm p
  | none => false

/-- Modelled from the spec: scan left to right, starting a new sentence at
every whitespace run immediately preceded by sentence-terminal punctuation.
`skip` is true while the scan is inside the whitespace run of a boundary;
`prev` is the previously scanned character. -/
def specSplitAux : Bool → Option Char → List Char → List Char → List (List Char)
  | _, _, acc, [] => [acc.reverse]
  | skip, prev, acc, c :: cs =>
    if skip && isSpace c then specSplitAux true none acc cs
    else if prevPunct prev && isSpace c then
      acc.reverse :: specSplitAux true none [] cs
    else specSplitAux false (some c) (c :: acc) cs

/-- Modelled from the spec: the sentence units of the normalized text. -/
def specSplitSentences (l : List Char) : List (List Char) :=
  specSplitAux false none [] l

theorem splitSentences_single (c : Char) : splitSentences [c] = [[c]] := by
  rw [splitSentences]

theorem splitSentences_cons2 (p c : Char) (rest : List Char) :
    splitSentences (p :: c :: rest) =
      if isPunctTerm p && isSpace c then
        [p] :: splitSentences (rest.dropWhile isSpace)
      else
        match splitSentences (c :: rest) with
        | u :: us => (p :: u) :: us
        | [] => [[p]] := by
  rw [splitSentences]

theorem specSplitAux_spec : ∀ n : Nat,
    (∀ l : List Char, l.length ≤ n → ∀ (p : Char) (acc : List Char), ∃ v us,
      splitSentences (p :: l) = (p :: v) :: us ∧
      specSplitAux false (some p) acc l = (acc.reverse ++ v) :: us)
    ∧ (∀ l : List Char, l.length ≤ n →
      specSplitAux true none [] l = splitSentences (l.dropWhile isSpace)) := by
  intro n
  induction n with
  | zero =>
    constructor
    · intro l hl p acc
      have : l = [] := List.eq_nil_of_length_eq_zero (Nat.le_zero.mp hl)
      subst this
      exact ⟨[], [], splitSentences_single p, by simp [specSplitAux]⟩
    · intro l hl
      have : l = [] := List.eq_nil_of_length_eq_zero (Nat.le_zero.mp hl)
      subst this
      rw [show specSplitAux true none [] ([] : List Char) = [[]] from rfl]
      rw [List.dropWhile_nil, splitSentences]
  | succ n ih =>
    constructor
    · intro l hl p acc
      cases l with
      | nil => exact ⟨[], [], splitSentences_single p, by simp [specSplitAux]⟩
      | cons c cs =>
        have hcs : cs.length ≤ n := by
          simp only [List.length_cons] at hl
          omega
        by_cases hb : (isPunctTerm p && isSpace c) = true
        · have hsplit := splitSentences_cons2 p c cs
          rw [if_pos hb] at hsplit
          have haux : specSplitAux false (some p) acc (c :: cs) =
              acc.reverse :: specSplitAux true none [] cs := by
            rw [specSplitAux]
            rw [show (false && isSpace c) = false from by simp]
            rw [show (prevPunct (some p) && isSpace c) = true from hb]
            simp
          refine ⟨[], splitSentences (cs.dropWhile isSpace), by simpa using hsplit, ?_⟩
          rw [haux, ih.2 cs hcs]
          simp
        · obtain ⟨v, us, h1, h2⟩ := ih.1 cs hcs c (c :: acc)
          refine ⟨c :: v, us, ?_, ?_⟩
          · rw [splitSentences_cons2, if_neg hb, h1]
          · have hstep : specSplitAux false (some p) acc (c :: cs) =
                specSplitAux false (some c) (c :: acc) cs := by
              rw [specSplitAux]
              rw [show (false && isSpace c) = false from by simp]
              rw [show (prevPunct (some p) && isSpace c) = false from by simpa using hb]
              simp
            rw [hstep, h2]
            simp
    · intro l hl
      cases l with
      | nil =>
        rw [show specSplitAux true none [] ([] : List Char) = [[]] from rfl]
        rw [List.dropWhile_nil, splitSentences]
      | cons c cs =>
        have hcs : cs.length ≤ n := by
          simp only [List.length_cons] at hl
          omega
        rw [List.dropWhile_cons]
        by_cases h : isSpace c
        · rw [if_pos h]
          rw [show specSplitAux true none [] (c :: cs) = specSplitAux true none [] cs from by
            rw [specSplitAux]
            rw [show (true && isSpace c) = true from by simp [h]]
            simp]
          exact ih.2 cs hcs
        · rw [if_neg h]
          have hstep : specSplitAux true none [] (c :: cs) =
              specSplitAux false (some c) [c] cs := by
            rw [specSplitAux]
            rw [show (true && isSpace c) = false from by simp [h]]
            rw [show (prevPunct none && isSpace c) = false from by simp [prevPunct]]
            simp
          obtain ⟨v, us, h1, h2⟩ := ih.1 cs hcs c [c]
          rw [hstep, h2, h1]
          simp

theorem splitSentences_eq_spec (l : List Char) :
    splitSentences l = specSplitSentences l := by
  unfold specSplitSentences
  cases l with
  | nil =>
    rw [show specSplitAux false none [] ([] : List Char) = [[]] from rfl]
    rw [splitSentences]
  | cons c cs =>
    have hstep : specSplitAux false none [] (c :: cs) =
        specSplitAux false (some c) [c] cs := by
      rw [specSplitAux]
      rw [show (false && isSpace c) = false from by simp]
      rw [show (prevPunct none && isSpace c) = false from by simp [prevPunct]]
      simp
    obtain ⟨v, us, h1, h2⟩ := (specSplitAux_spec cs.length).1 cs (Nat.le_refl _) c [c]
    rw [hstep, h2, h1]
    simp

/-- A transcript whose normalization exercises every stage: multi-space
runs, whitespace before punctuation, and the sentence split. -/
def stageTranscript : List Segment :=
  [ { text := "hello   there.", start := 0, duration := 2 },
    { text := "  ok ?", start := 2, duration := 2 } ]

/-- A transcript showing the splitter has no abbreviation handling. -/
def drTranscript : List Segment :=
  [ { text := "Dr. Smith went home.", start := 0, duration := 4 } ]

/-- **C5.** The prose normalization concatenates the segment texts with
single spaces, collapses whitespace runs to one space, removes whitespace
immediately before `.`, `!` or `?`, and splits at every whitespace run
immediately preceded by one of them — each regex stage agreeing with its
spec-side single-pass description on all inputs; abbreviations are not
special-cased, as the `"Dr. Smith"` example shows. -/
theorem claim5_prose_normalization :
    (∀ t : List Segment,
      proseUnits t = specSplitSentences (specRmWs (specCollapseWs (joinTexts t))))
    ∧ proseUnits stageTranscript = ["hello there.".data, "ok?".data]
    ∧ proseUnits drTranscript = ["Dr.".data, "Smith went home.".data] := by
  have hpipe : ∀ t : List Segment,
      proseUnits t = specSplitSentences (specRmWs (specCollapseWs (joinTexts t))) := by
    intro t
    unfold proseUnits
    rw [collapseWs_eq_spec, rmWsPunct_eq_spec, splitSentences_eq_spec]
  refine ⟨hpipe, ?_, ?_⟩
  · rw [hpipe]; decide
  · rw [hpipe]; decide

/-- The composed pipeline equality, used to evaluate the prose pipeline on
concrete inputs through its structurally recursive spec-side form. -/
theorem proseUnits_eq_spec (t : List Segment) :
    proseUnits t = specSplitSentences (specRmWs (specCollapseWs (joinTexts t))) := by
  unfold proseUnits
  rw [collapseWs_eq_spec, rmWsPunct_eq_spec, splitSentences_eq_spec]

/-! ## Paragraph grouping (C1) -/

/-- The grouping loop of `create_prose_transcript`, keeping each paragraph
as its list of sentence units instead of joining them. -/
def groupLoop : List (List Char) → List (List Char) → List (List (List Char))
  | cur, [] => if cur.isEmpty then [] else [cur]
  | cur, s :: rest =>
    if (pyStrip s).isEmpty then groupLoop cur rest
    else
      let cur' := cur ++ [pyStrip s]
      if 3 ≤ cur'.length then cur' :: groupLoop [] rest
      else groupLoop cur' rest

/-- The paragraph grouping of a list of sentence units. -/
def groupSentences (units : List (List Char)) : List (List (List Char)) :=
  groupLoop [] units

/-- The stripped non-blank sentence units, in order. -/
def strippedUnits (units : List (List Char)) : List (List Char) :=
  (units.map pyStrip).filter (fun u => !u.isEmpty)

/-- Consecutive chunks of three, the last chunk holding one to three
elements. -/
def chunks3 {α : Type} : List α → List (List α)
  | [] => []
  | x :: rest => (x :: rest.take 2) :: chunks3 (rest.drop 2)
termination_by l => l.length
decreasing_by
  simp only [List.length_cons, List.length_drop]
  omega

/-- The paragraph sizes the claim mandates for `k` grouped sentences. -/
def paraSizes (k : Nat) : List Nat :=
  List.replicate (k / 3) 3 ++ (if k % 3 = 0 then [] else [k % 3])

theorem proseLoop_eq_group (units : List (List Char)) : ∀ cur : List (List Char),
    proseLoop cur units = (groupLoop cur units).map (joinWith [' ']) := by
  induction units with
  | nil =>
    intro cur
    by_cases h : cur.isEmpty <;> simp [proseLoop, groupLoop, h]
  | cons s rest ih =>
    intro cur
    by_cases hb : (pyStrip s).isEmpty
    · simp [proseLoop, groupLoop, hb, ih]
    · by_cases h3 : 2 ≤ cur.length
      · simp [proseLoop, groupLoop, hb, h3, ih]
      · simp [proseLoop, groupLoop, hb, h3, ih]

theorem strippedUnits_nil : strippedUnits [] = [] := rfl

theorem strippedUnits_cons (s : List Char) (rest : List (List Char)) :
    strippedUnits (s :: rest) =
      if (pyStrip s).isEmpty then strippedUnits rest
      else pyStrip s :: strippedUnits rest := by
  unfold strippedUnits
  by_cases h : (pyStrip s).isEmpty <;> simp [h, List.filter_cons]

theorem chunks3_small {α : Type} (l : List α) (h0 : l ≠ []) (h3 : l.length ≤ 3) :
    chunks3 l = [l] := by
  cases l with
  | nil => cases h0 rfl
  | cons x rest =>
    rw [chunks3]
    simp only [List.length_cons] at h3
    rw [List.take_of_length_le (by omega), List.drop_of_length_le (by omega)]
    rw [show chunks3 ([] : List α) = [] from by rw [chunks3]]

theorem chunks3_full {α : Type} (a b c : α) (m : List α) :
    chunks3 (a :: b :: c :: m) = [a, b, c] :: chunks3 m := by
  rw [chunks3]
  rfl

theorem groupLoop_eq_chunks3 (units : List (List Char)) : ∀ cur : List (List Char),
    cur.length < 3 → groupLoop cur units = chunks3 (cur ++ strippedUnits units) := by
  induction units with
  | nil =>
    intro cur hcur
    rw [strippedUnits_nil, List.append_nil]
    by_cases h : cur.isEmpty
    · have : cur = [] := by
        cases cur with
        | nil => rfl
        | cons x xs => simp at h
      subst this
      rw [show groupLoop [] [] = [] from by simp [groupLoop]]
      rw [show chunks3 ([] : List (List Char)) = [] from by rw [chunks3]]
    · have hne : cur ≠ [] := by
        intro hh
        subst hh
        simp at h
      rw [show groupLoop cur [] = [cur] from by simp [groupLoop, h]]
      exact (chunks3_small cur hne (by omega)).symm
  | cons s rest ih =>
    intro cur hcur
    rw [strippedUnits_cons]
    by_cases hb : (pyStrip s).isEmpty
    · rw [if_pos hb]
      rw [show groupLoop cur (s :: rest) = groupLoop cur rest from by simp [groupLoop, hb]]
      exact ih cur hcur
    · rw [if_neg hb]
      by_cases h3 : 3 ≤ (cur ++ [pyStrip s]).length
      · have hlen : cur.length = 2 := by
          simp only [List.length_append, List.length_cons, List.length_nil] at h3
          omega
        have hflush : groupLoop cur (s :: rest) =
            (cur ++ [pyStrip s]) :: groupLoop [] rest := by
          simp [groupLoop, hb, hlen]
        rw [hflush, ih [] (by simp)]
        match cur, hlen with
        | [a, b], _ =>
          rw [List.nil_append]
          rw [show ([a, b] ++ [pyStrip s] : List (List Char)) = [a, b, pyStrip s] from rfl]
          rw [show ([a, b] ++ pyStrip s :: strippedUnits rest : List (List Char)) =
            a :: b :: pyStrip s :: strippedUnits rest from rfl]
          rw [chunks3_full]
      · have hlt : (cur ++ [pyStrip s]).length < 3 := by omega
        have hsm : cur.length < 2 := by
          simp only [List.length_append, List.length_cons, List.length_nil] at h3
          omega
        rw [show groupLoop cur (s :: rest) = groupLoop (cur ++ [pyStrip s]) rest from by
          simp [groupLoop, hb, Nat.not_le.mpr hsm]]
        rw [ih (cur ++ [pyStrip s]) hlt, List.append_assoc]
        rfl

theorem chunks3_sizes {α : Type} : ∀ (n : Nat) (l : List α), l.length ≤ n →
    (chunks3 l).map List.length = paraSizes l.length := by
  intro n
  induction n with
  | zero =>
    intro l hl
    have : l = [] := List.eq_nil_of_length_eq_zero (Nat.le_zero.mp hl)
    subst this
    rw [show chunks3 ([] : List α) = [] from by rw [chunks3]]
    simp [paraSizes]
  | succ n ih =>
    intro l hl
    cases l with
    | nil =>
      rw [show chunks3 ([] : List α) = [] from by rw [chunks3]]
      simp [paraSizes]
    | cons x rest =>
      rw [chunks3, List.map_cons]
      rw [ih (rest.drop 2) (by
        simp only [List.length_cons] at hl
        simp only [List.length_drop]
        omega)]
      simp only [List.length_cons, List.length_take, List.length_drop]
      rcases Nat.lt_or_ge rest.length 2 with hr | hr
      · match rest, hr with
        | [], _ => simp [paraSizes]
        | [y], _ => simp [paraSizes]
      · have hmin : min 2 rest.length = 2 := by omega
        rw [hmin]
        unfold paraSizes
        have e1 : (rest.length + 1) / 3 = (rest.length - 2) / 3 + 1 := by omega
        have e2 : (rest.length + 1) % 3 = (rest.length - 2) % 3 := by omega
        rw [e1, e2, List.replicate_succ]
        rfl

theorem groupSentences_sizes (units : List (List Char)) :
    (groupSentences units).map List.length = paraSizes (strippedUnits units).length := by
  unfold groupSentences
  rw [groupLoop_eq_chunks3 units [] (by simp), List.nil_append]
  exact chunks3_sizes (strippedUnits units).length _ (Nat.le_refl _)

/-- A transcript whose normalization yields seven sentences. -/
def sevenTranscript : List Segment :=
  [ { text := "One. Two.", start := 0, duration := 2 },
    { text := "Three. Four.", start := 2, duration := 2 },
    { text := "Five. Six. Seven.", start := 4, duration := 2 } ]

/-- **C1.** Paragraph grouping is greedy: the paragraphs of any unit list
consist of chunks of exactly three sentences, with a trailing paragraph of
`k mod 3` sentences when the non-blank sentence count `k` is not a
multiple of three; the rendered transcript joins the space-joined
paragraphs with a blank line, and a seven-sentence input yields paragraph
sizes `[3, 3, 1]` in order. -/
theorem claim1_prose_grouping :
    (∀ units : List (List Char),
      (groupSentences units).map List.length = paraSizes (strippedUnits units).length)
    ∧ (∀ t : List Segment, create_prose_transcript t =
        String.mk (joinWith ['\n', '\n']
          ((groupSentences (proseUnits t)).map (joinWith [' ']))))
    ∧ (groupSentences (proseUnits sevenTranscript)).map List.length = [3, 3, 1]
    ∧ create_prose_transcript sevenTranscript =
        "One. Two. Three.\n\nFour. Five. Six.\n\nSeven." := by
  refine ⟨fun units => groupSentences_sizes units, ?_, ?_, ?_⟩
  · intro t
    unfold create_prose_transcript groupSentences
    rw [proseLoop_eq_group]
  · rw [proseUnits_eq_spec]
    decide
  · unfold create_prose_transcript
    rw [proseUnits_eq_spec]
    decide

/-! ## Blank sentence units (C9) -/

theorem dropWhile_eq_nil_of_all {p : Char → Bool} (l : List Char)
    (h : ∀ c ∈ l, p c = true) : l.dropWhile p = [] := by
  induction l with
  | nil => rfl
  | cons c cs ih =>
    rw [List.dropWhile_cons, if_pos (h c (List.mem_cons_self c cs))]
    exact ih fun d hd => h d (List.mem_cons_of_mem c hd)

theorem dropWhile_head_false {p : Char → Bool} :
    ∀ (l : List Char) (c : Char) (rest : List Char),
      l.dropWhile p = c :: rest → p c = false := by
  intro l
  induction l with
  | nil => intro c rest h; cases h
  | cons x xs ih =>
    intro c rest h
    rw [List.dropWhile_cons] at h
    by_cases hx : p x = true
    · rw [if_pos hx] at h
      exact ih c rest h
    · rw [if_neg hx] at h
      injection h with h1 _
      subst h1
      exact Bool.eq_false_iff.mpr hx

theorem pyStrip_eq_nil_of_all_ws (l : List Char)
    (h : ∀ c ∈ l, isSpace c = true) : pyStrip l = [] := by
  unfold pyStrip
  rw [dropWhile_eq_nil_of_all l h]
  rfl

theorem pyStrip_has_non_ws (s : List Char) (h : ¬ (pyStrip s).isEmpty = true) :
    ∃ c ∈ pyStrip s, isSpace c = false := by
  unfold pyStrip at h ⊢
  cases hd : ((s.dropWhile isSpace).reverse.dropWhile isSpace) with
  | nil => rw [hd] at h; simp at h
  | cons d ds =>
    refine ⟨d, ?_, dropWhile_head_false _ d ds hd⟩
    exact List.mem_reverse.mpr (List.mem_cons_self d ds)

theorem mem_joinWith (sep : List Char) :
    ∀ (g : List (List Char)) (u : List Char) (c : Char),
      u ∈ g → c ∈ u → c ∈ joinWith sep g := by
  intro g
  induction g with
  | nil => intro u c hu _; cases hu
  | cons x xs ih =>
    intro u c hu hc
    cases xs with
    | nil =>
      rcases List.mem_cons.mp hu with rfl | hu'
      · exact hc
      · cases hu'
    | cons y ys =>
      rcases List.mem_cons.mp hu with rfl | hu'
      · exact List.mem_append_left _ (List.mem_append_left _ hc)
      · exact List.mem_append_right _ (ih u c hu' hc)

theorem joinWith_all_ws (sep : List Char) (hsep : ∀ c ∈ sep, isSpace c = true) :
    ∀ g : List (List Char), (∀ u ∈ g, ∀ c ∈ u, isSpace c = true) →
      ∀ c ∈ joinWith sep g, isSpace c = true := by
  intro g
  induction g with
  | nil => intro _ c hc; cases hc
  | cons x xs ih =>
    intro hg c hc
    cases xs with
    | nil => exact hg x (List.mem_cons_self _ _) c hc
    | cons y ys =>
      rcases List.mem_append.mp hc with hc1 | hc2
      · rcases List.mem_append.mp hc1 with hcx | hcs
        · exact hg x (List.mem_cons_self _ _) c hcx
        · exact hsep c hcs
      · exact ih (fun u hu => hg u (List.mem_cons_of_mem _ hu)) c hc2

theorem collapseWs_all_ws : ∀ l : List Char, (∀ c ∈ l, isSpace c = true) →
    ∀ c ∈ collapseWs l, isSpace c = true := by
  intro l
  induction l using collapseWs.induct with
  | case1 =>
    intro _ c hc
    rw [collapseWs] at hc
    cases hc
  | case2 c cs h ih =>
    intro hall d hd
    rw [collapseWs, if_pos h] at hd
    rcases List.mem_cons.mp hd with rfl | hd'
    · rfl
    · refine ih (fun e he => ?_) d hd'
      exact hall e (List.mem_cons_of_mem _ ((List.dropWhile_sublist isSpace).mem he))
  | case3 c cs h ih =>
    intro hall
    exact absurd (hall c (List.mem_cons_self _ _)) h

theorem rmWsPunct_no_punct : ∀ l : List Char, (∀ c ∈ l, isPunctTerm c = false) →
    rmWsPunct l = l := by
  intro l
  induction l using rmWsPunct.induct with
  | case1 => intro _; rw [rmWsPunct]
  | case2 c cs h p rest hdrop hp ih =>
    intro hall
    have hmem : p ∈ cs := (List.dropWhile_sublist isSpace).mem (by rw [hdrop]; exact List.mem_cons_self _ _)
    have := hall p (List.mem_cons_of_mem _ hmem)
    rw [hp] at this
    cases this
  | case3 c cs h p rest hdrop hp ih =>
    intro hall
    rw [rmWsPunct.eq_2, if_pos h]
    split
    next p' rest' heq =>
      rw [hdrop] at heq
      injection heq with h1 h2
      subst h1; subst h2
      rw [if_neg hp, ih (fun d hd => hall d (List.mem_cons_of_mem _ hd))]
    next heq =>
      rw [hdrop] at heq; cases heq
  | case4 c cs h hdrop ih =>
    intro hall
    rw [rmWsPunct.eq_2, if_pos h]
    split
    next p' rest' heq =>
      rw [hdrop] at heq; cases heq
    next heq =>
      rw [ih (fun d hd => hall d (List.mem_cons_of_mem _ hd))]
  | case5 c cs h ih =>
    intro hall
    rw [rmWsPunct.eq_2, if_neg h]
    rw [ih (fun d hd => hall d (List.mem_cons_of_mem _ hd))]

theorem splitSentences_no_punct : ∀ l : List Char, (∀ c ∈ l, isPunctTerm c = false) →
    splitSentences l = [l] := by
  intro l
  induction l using splitSentences.induct with
  | case1 => intro _; rw [splitSentences]
  | case2 c => intro _; exact splitSentences_single c
  | case3 p c rest hb ih =>
    intro hall
    have := hall p (List.mem_cons_self _ _)
    rw [Bool.and_eq_true] at hb
    rw [hb.1] at this
    cases this
  | case4 p c rest hb u us hu ih =>
    intro hall
    rw [splitSentences_cons2, if_neg hb]
    rw [ih (fun d hd => hall d (List.mem_cons_of_mem _ hd))]
  | case5 p c rest hb hnil ih =>
    intro hall
    rw [ih (fun d hd => hall d (List.mem_cons_of_mem _ hd))] at hnil
    cases hnil

theorem proseLoop_non_ws : ∀ (units : List (List Char)) (cur : List (List Char)),
    (cur = [] ∨ ∃ c ∈ joinWith [' '] cur, isSpace c = false) →
    ∀ p ∈ proseLoop cur units, ∃ c ∈ p, isSpace c = false := by
  intro units
  induction units with
  | nil =>
    intro cur hcur p hp
    by_cases h : cur.isEmpty
    · rw [show proseLoop cur [] = [] from by simp [proseLoop, h]] at hp
      cases hp
    · rw [show proseLoop cur [] = [joinWith [' '] cur] from by simp [proseLoop, h]] at hp
      rcases List.mem_cons.mp hp with rfl | h0
      · rcases hcur with rfl | hx
        · simp at h
        · exact hx
      · cases h0
  | cons s rest ih =>
    intro cur hcur p hp
    by_cases hb : (pyStrip s).isEmpty
    · rw [show proseLoop cur (s :: rest) = proseLoop cur rest from by simp [proseLoop, hb]] at hp
      exact ih cur hcur p hp
    · obtain ⟨c0, hc0mem, hc0⟩ := pyStrip_has_non_ws s hb
      have hcur' : ∃ c ∈ joinWith [' '] (cur ++ [pyStrip s]), isSpace c = false :=
        ⟨c0, mem_joinWith [' '] _ (pyStrip s) c0
          (List.mem_append_right _ (List.mem_cons_self _ _)) hc0mem, hc0⟩
      by_cases h3 : 2 ≤ cur.length
      · rw [show proseLoop cur (s :: rest) =
            joinWith [' '] (cur ++ [pyStrip s]) :: proseLoop [] rest from by
          simp [proseLoop, hb, h3]] at hp
        rcases List.mem_cons.mp hp with rfl | hp'
        · exact hcur'
        · exact ih [] (Or.inl rfl) p hp'
      · rw [show proseLoop cur (s :: rest) = proseLoop (cur ++ [pyStrip s]) rest from by
          simp [proseLoop, hb, h3]] at hp
        exact ih (cur ++ [pyStrip s]) (Or.inr hcur') p hp

/-- **C9.** Prose rendering silently discards blank sentence units: the
empty transcript and every transcript whose segment texts are all
whitespace render to the empty string, and every paragraph the grouping
emits contains a non-whitespace character. -/
theorem claim9_prose_blank_units :
    create_prose_transcript [] = ""
    ∧ (∀ t : List Segment,
        (∀ seg ∈ t, ∀ c ∈ seg.text.data, isSpace c = true) →
        create_prose_transcript t = "")
    ∧ ∀ t : List Segment, ∀ p ∈ proseLoop [] (proseUnits t),
        ∃ c ∈ p, isSpace c = false := by
  refine ⟨by rw [create_prose_transcript, proseUnits_eq_spec]; decide, ?_, ?_⟩
  · intro t hall
    have hjoin : ∀ c ∈ joinTexts t, isSpace c = true := by
      refine joinWith_all_ws [' '] (by intro c hc; simp at hc; subst hc; rfl)
        (t.map (fun seg => seg.text.data)) ?_
      intro u hu c hc
      obtain ⟨seg, hseg, rfl⟩ := List.mem_map.mp hu
      exact hall seg hseg c hc
    have hcoll : ∀ c ∈ collapseWs (joinTexts t), isSpace c = true :=
      collapseWs_all_ws (joinTexts t) hjoin
    have hnp : ∀ c ∈ collapseWs (joinTexts t), isPunctTerm c = false :=
      fun c hc => isSpace_not_punct c (hcoll c hc)
    unfold create_prose_transcript proseUnits
    rw [rmWsPunct_no_punct _ hnp, splitSentences_no_punct _ hnp]
    rw [show proseLoop [] [collapseWs (joinTexts t)] = [] from by
      simp [proseLoop, pyStrip_eq_nil_of_all_ws _ hcoll]]
    rfl
  · intro t p hp
    exact proseLoop_non_ws (proseUnits t) [] (Or.inl rfl) p hp

/-- Witness for C9: an all-whitespace transcript renders to the empty
string, and a concrete emitted paragraph contains a non-space character. -/
theorem claim9_prose_blank_units_witness :
    create_prose_transcript [Segment.mk " \t " 0 1, Segment.mk "  " 1 1] = ""
    ∧ ∃ c ∈ "One. Two. Three.".data, isSpace c = false := by
  constructor
  · exact claim9_prose_blank_units.2.1 _ (by decide)
  · exact claim9_prose_blank_units.2.2 sevenTranscript "One. Two. Three.".data
      (by rw [proseUnits_eq_spec]; decide)

end GetSubtitles
